/-
Verification of the analysis core of the `video_editor` package
(src/video_editor/analyzer.py), against its natural-language specification.

The analysis pipeline is embedded shallowly:
* times are rationals (the Python code uses floats, but every constant and
  every operation appearing in the analysis is exact: +, -, max, min and
  comparisons, so the rational embedding is faithful on exact inputs);
* the external fuzzy-similarity library and the LLM judges are abstracted:
  the list `rangesToRemove` produced by retake selection, and the judge
  decision fed to the validation stage, are universal parameters, so every
  theorem quantifies over all possible outcomes of those collaborators;
* Python strings are modelled via their character lists, with hand-rolled
  structurally recursive versions of `strip` / `upper` / `split`, and the
  regex `\d+` by the first maximal ASCII digit run.
-/
import Mathlib

namespace VideoEditor

/-- A transcribed speech segment (src/video_editor/transcriber.py, `Segment`).
The optional word-level `tokens` field is omitted: the analysis code never
reads it and `_merge_overlapping_ranges` always rebuilds it as `None`. -/
structure Segment where
  start : ℚ
  «end» : ℚ
  text : String
  confidence : ℚ
deriving DecidableEq, Repr

instance : Inhabited Segment := ⟨⟨0, 0, "", 1⟩⟩

/-- A time range for video cutting (src/video_editor/analyzer.py, `TimeRange`). -/
structure TimeRange where
  start : ℚ
  «end» : ℚ
deriving DecidableEq, Repr

instance : Inhabited TimeRange := ⟨⟨0, 0⟩⟩

/-- Objective metrics computed for a single take
(src/video_editor/analyzer.py, `TakeMetrics`).  The `hesitation_types`
dictionary is modelled as an association list; the analysis functions under
verification never read it. -/
structure TakeMetrics where
  word_count : ℕ
  duration : ℚ
  hesitation_count : ℕ
  hesitation_types : List (String × ℕ)
  incomplete_sentence : Bool
  has_completion_marker : Bool
  correction_signals : ℕ
  position : ℕ
deriving DecidableEq, Repr

instance : Inhabited TakeMetrics := ⟨⟨0, 0, 0, [], false, false, 0, 0⟩⟩

/-! ## Silence detector (`Analyzer.detect_silences`, analyzer.py lines 155-186) -/

/-- The loop `for i in range(len(segments) - 1)` of `detect_silences`:
one silence range per consecutive pair whose gap exceeds the threshold,
in order. -/
def middleSilences : List Segment → ℚ → List TimeRange
  | a :: b :: rest, th =>
      (if th < b.start - a.«end» then [⟨a.«end», b.start⟩] else []) ++
        middleSilences (b :: rest) th
  | _, _ => []

/-- `Analyzer.detect_silences`: leading silence, inter-segment silences,
trailing silence, appended in this order.  `silenceThreshold` is
`config.silence_threshold` (default 1.5). -/
def detect_silences (segments : List Segment) (videoDuration silenceThreshold : ℚ) :
    List TimeRange :=
  (match segments with
    | [] => []
    | s :: _ => if silenceThreshold < s.start then [⟨0, s.start⟩] else []) ++
  middleSilences segments silenceThreshold ++
  (match segments.getLast? with
    | none => []
    | some s =>
        if silenceThreshold < videoDuration - s.«end» then [⟨s.«end», videoDuration⟩] else [])

/-! ## Recording-block segmenter (`Analyzer._find_recording_blocks`, lines 193-220) -/

/-- The gap `segments[i+1].start - segments[i].end` read by the block loop. -/
def gapAt (segments : List Segment) (i : ℕ) : ℚ :=
  (segments.getD (i + 1) default).start - (segments.getD i default).«end»

/-- The loop of `_find_recording_blocks` over the index list
`range(len(segments) - 1)`, carrying `block_start`; the final block
`(block_start, len(segments) - 1)` is appended when the index list is
exhausted. -/
def blocksLoop (segments : List Segment) : ℕ → List ℕ → List (ℕ × ℕ)
  | blockStart, [] => [(blockStart, segments.length - 1)]
  | blockStart, i :: rest =>
      if 3 < gapAt segments i then (blockStart, i) :: blocksLoop segments (i + 1) rest
      else blocksLoop segments blockStart rest

/-- `Analyzer._find_recording_blocks`. -/
def find_recording_blocks (segments : List Segment) : List (ℕ × ℕ) :=
  if segments.isEmpty then [] else blocksLoop segments 0 (List.range (segments.length - 1))

/-! ## Take-selection validation and fallback (lines 563-701) -/

/-- The descending scan `for i in range(len(metrics_list) - 1, -1, -1)`:
`scanBack p ml n` returns the greatest `i < n` with `p (ml[i])`, scanning
from `n - 1` downwards. -/
def scanBack (p : TakeMetrics → Bool) (ml : List TakeMetrics) : ℕ → Option ℕ
  | 0 => none
  | i + 1 => if p (ml.getD i default) then some i else scanBack p ml i

/-- `Analyzer._validate_decision` (lines 598-627).  `metrics_list[decision]`
is the selected take, `metrics_list[-1]` the last one.  Rule 1 returns
immediately when it fires; rule 2 is reached only otherwise.  Python list
indexing is modelled with `getD` (all claims keep `decision` in bounds,
where Python would not raise either). -/
def validate_decision (decision : ℕ) (metricsList : List TakeMetrics) :
    ℕ × Option String :=
  if metricsList = [] then (decision, none)
  else if decision ≠ metricsList.length - 1 ∧
      ((metricsList.getLastD default).has_completion_marker ∧
        ¬ (metricsList.getD decision default).has_completion_marker ∧
        (metricsList.getLastD default).hesitation_count ≤
          (metricsList.getD decision default).hesitation_count) then
    (metricsList.length - 1, some "last take is complete with fewer/equal hesitations")
  else if (metricsList.getD decision default).incomplete_sentence then
    match scanBack (fun m => !m.incomplete_sentence) metricsList metricsList.length with
    | some i => (i, some "avoiding incomplete take")
    | none => (decision, none)
  else (decision, none)

/-- The test of the fallback scan: has a completion marker and is not
flagged incomplete. -/
def qualifiesTake (m : TakeMetrics) : Bool :=
  m.has_completion_marker && !m.incomplete_sentence

/-- `Analyzer._fallback_selection` (lines 629-640): most recent take with a
completion marker and not flagged incomplete, else the last take. -/
def fallback_selection (metricsList : List TakeMetrics) : ℕ :=
  match scanBack qualifiesTake metricsList metricsList.length with
  | some i => i
  | none => metricsList.length - 1

/-- Stage 3 of `Analyzer.select_best_take_llm` (lines 691-701).  The judge
outcome (lines 663-689) is abstracted as `judged`: `none` when no LLM client
is configured or every judge call failed, `some (decision, reasoning)` for a
parsed judge response. -/
def select_best_take_stage3 (judged : Option (ℕ × String))
    (metricsList : List TakeMetrics) : ℕ × String :=
  match judged with
  | none => (fallback_selection metricsList, "rule-based: selected last complete take")
  | some (decision, reasoning) =>
      let vd := validate_decision decision metricsList
      match vd.2 with
      | some overrideReason => (vd.1, "override: " ++ overrideReason)
      | none => (decision, reasoning)

/-! ## Structured-response parsing (`Analyzer._parse_structured_response`, lines 563-596)

Python strings are modelled as their character lists (`String.data`), with
hand-rolled versions of `strip` / `upper` / `split` so that every function
is structurally recursive and evaluable. -/

/-- The whitespace set of Python `str.strip`. -/
def pyIsSpace (c : Char) : Bool :=
  c == ' ' || c == '\t' || c == '\n' || c == '\r' || c == '\x0B' || c == '\x0C'

/-- Python `str.strip`: drop whitespace from both ends. -/
def pyStripL (cs : List Char) : List Char :=
  ((cs.dropWhile pyIsSpace).reverse.dropWhile pyIsSpace).reverse

/-- Python `s.split(sep)` for a one-character separator: always returns at
least one (possibly empty) piece. -/
def splitOnChar (sep : Char) : List Char → List (List Char)
  | [] => [[]]
  | c :: cs =>
      match splitOnChar sep cs, c == sep with
      | rest, true => [] :: rest
      | [], false => [[c]]
      | r :: rs, false => (c :: r) :: rs

/-- Python `s.split(sep, 1)[1]`: everything after the first occurrence of
`sep`, or `none` when `sep` is absent (Python would raise `IndexError`,
which the caller catches). -/
def splitFirstChar (sep : Char) : List Char → Option (List Char)
  | [] => none
  | c :: cs => if c == sep then some cs else splitFirstChar sep cs

/-- Python `str.upper` (ASCII letters; the parsed keywords are ASCII). -/
def pyUpperL (cs : List Char) : List Char :=
  cs.map Char.toUpper

/-- Python `str.startswith`. -/
def startsWithL : List Char → List Char → Bool
  | [], _ => true
  | _ :: _, [] => false
  | p :: ps, c :: rest => c == p && startsWithL ps rest

/-- Numeric value of a list of ASCII digits, as Python `int` would read it. -/
def digitsToNat (cs : List Char) : ℕ :=
  cs.foldl (fun n c => 10 * n + (c.toNat - 48)) 0

/-- Python `re.search(r'\d+', s)` followed by `int(...)`: the first maximal
run of digits, or `none` when the string has no digit. -/
def firstDigitRun (cs : List Char) : Option ℕ :=
  match cs.dropWhile (fun c => !c.isDigit) with
  | [] => none
  | c :: rest => some (digitsToNat ((c :: rest).takeWhile Char.isDigit))

/-- The body of the `DECISION:` branch of the parse loop, applied to an
already-stripped line: extract the first integer after the colon and
convert it to a 0-indexed decision (`int(...) - 1`).  `none` models both "no
number found" and the caught `IndexError`. -/
def decisionVal (lineStripped : List Char) : Option ℤ :=
  if startsWithL "DECISION:".data (pyUpperL lineStripped) then
    match splitFirstChar ':' lineStripped with
    | none => none
    | some numStr =>
        match firstDigitRun (pyStripL numStr) with
        | none => none
        | some n => some ((n : ℤ) - 1)
  else none

/-- The `for line in lines` loop of `_parse_structured_response`, carrying
the current `decision` and `reasoning`. -/
def parseLoop : List (List Char) → Option ℤ → String → Option ℤ × String
  | [], decision, reasoning => (decision, reasoning)
  | line :: rest, decision, reasoning =>
      let ls := pyStripL line
      if startsWithL "DECISION:".data (pyUpperL ls) then
        match decisionVal ls with
        | some v => parseLoop rest (some v) reasoning
        | none => parseLoop rest decision reasoning
      else if startsWithL "REASONING:".data (pyUpperL ls) then
        parseLoop rest decision
          (match splitFirstChar ':' ls with
            | some r => String.mk (pyStripL r)
            | none => "")
      else parseLoop rest decision reasoning

/-- `Analyzer._parse_structured_response`. -/
def parse_structured_response (response : String) (numTakes : ℕ) : ℤ × String :=
  let lines := splitOnChar '\n' (pyStripL response.data)
  let parsed := parseLoop lines none ""
  match parsed.1 with
  | some v =>
      if 0 ≤ v ∧ v < (numTakes : ℤ) then (v, parsed.2)
      else ((numTakes : ℤ) - 1, "Fallback: defaulting to last take")
  | none => ((numTakes : ℤ) - 1, "Fallback: defaulting to last take")

/-! ## Range reconciliation (`Analyzer._merge_overlapping_ranges`, lines 801-850,
and the keep-range construction of `Analyzer.analyze`, lines 759-795) -/

/-- Merging a range into the current one: keep the current start, extend the
end (`TimeRange(current_range.start, max(current_range.end, next_range.end))`). -/
def mergeRange (a b : TimeRange) : TimeRange :=
  ⟨a.start, max a.«end» b.«end»⟩

/-- Merging the segment paired with a merged range: keep the current start,
take the max end, join the texts with a space, take the min confidence. -/
def mergeSegment (a b : Segment) : Segment :=
  ⟨a.start, max a.«end» b.«end», a.text ++ " " ++ b.text, min a.confidence b.confidence⟩

/-- One merge step on a (range, segment) pair. -/
def mergeTwo (a b : TimeRange × Segment) : TimeRange × Segment :=
  (mergeRange a.1 b.1, mergeSegment a.2 b.2)

/-- The `for next_range, next_seg in paired[1:]` loop of
`_merge_overlapping_ranges`: merge while the next start is within the
current end plus the 0.05 s tolerance, else emit the current pair. -/
def mergeLoop : TimeRange × Segment → List (TimeRange × Segment) → List (TimeRange × Segment)
  | cur, [] => [cur]
  | cur, p :: rest =>
      if p.1.start ≤ cur.1.«end» + 1/20 then mergeLoop (mergeTwo cur p) rest
      else cur :: mergeLoop p rest

/-- The sort key of `sorted(zip(ranges, segments), key=lambda x: x[0].start)`. -/
def pairLE (a b : TimeRange × Segment) : Prop :=
  a.1.start ≤ b.1.start

instance : DecidableRel pairLE :=
  fun a b => inferInstanceAs (Decidable (a.1.start ≤ b.1.start))

instance : IsTotal (TimeRange × Segment) pairLE :=
  ⟨fun a b => le_total a.1.start b.1.start⟩

instance : IsTrans (TimeRange × Segment) pairLE :=
  ⟨fun _ _ _ h h' => le_trans h h'⟩

/-- Stable sort by range start, then the merge loop.  `insertionSort` with a
non-strict key comparison is stable, like Python's `sorted`. -/
def mergePairs (paired : List (TimeRange × Segment)) : List (TimeRange × Segment) :=
  match List.insertionSort pairLE paired with
  | [] => []
  | c :: rest => mergeLoop c rest

/-- `Analyzer._merge_overlapping_ranges`.  The two parallel result lists of
the Python code are the two projections of the merged pair list. -/
def merge_overlapping_ranges (ranges : List TimeRange) (segments : List Segment) :
    List TimeRange × List Segment :=
  if ranges = [] then ([], []) else
  let merged := mergePairs (ranges.zip segments)
  (merged.map Prod.fst, merged.map Prod.snd)

/-- The removal test of `Analyzer.analyze` (lines 779-783): a segment is
dropped when it lies entirely inside some removal range. -/
def shouldRemove (rangesToRemove : List TimeRange) (seg : Segment) : Bool :=
  rangesToRemove.any fun r => decide (seg.start ≥ r.start) && decide (seg.«end» ≤ r.«end»)

/-- The buffering of a kept segment (lines 786-788). -/
def bufferedRange (videoDuration startBuffer endBuffer : ℚ) (seg : Segment) : TimeRange :=
  ⟨max 0 (seg.start - startBuffer), min videoDuration (seg.«end» + endBuffer)⟩

/-- The keep-range construction of `Analyzer.analyze` (lines 759-795),
parameterised by `rangesToRemove`, the spans of the non-best takes collected
on lines 760-769.  That list is computed from the fuzzy-similarity grouping
and the LLM take selection, so the theorems below quantify over it, covering
every possible outcome of those collaborators.  The `silences` computed on
line 751 are never used in the keep-range construction and are omitted. -/
def analyzeKeep (rangesToRemove : List TimeRange) (segments : List Segment)
    (videoDuration startBuffer endBuffer : ℚ) : List TimeRange × List Segment :=
  let kept := segments.filter fun seg => !shouldRemove rangesToRemove seg
  let keepRanges := kept.map (bufferedRange videoDuration startBuffer endBuffer)
  merge_overlapping_ranges keepRanges kept

/-! ## Concrete example inputs used by the claims -/

/-- The end-to-end example of claim C7: segments (0,2), (2.2,4), (10,12),
duration 15, threshold 1.5. -/
def exampleSegments : List Segment :=
  [⟨0, 2, "hello", 1⟩, ⟨11/5, 4, "hello world", 1⟩, ⟨10, 12, "goodbye", 1⟩]

/-- The four-segment example of claim C6, with inter-segment gaps
0.5 s, 1.0 s and 5.0 s. -/
def fourSegments : List Segment :=
  [⟨0, 1, "a", 1⟩, ⟨3/2, 2, "b", 1⟩, ⟨3, 4, "c", 1⟩, ⟨9, 10, "d", 1⟩]

/-- The concrete counterexample to claim C2: two takes, the first complete
but unmarked, the last both completion-marked and flagged incomplete. -/
def cexMetrics : List TakeMetrics :=
  [⟨3, 1, 5, [], false, false, 0, 0⟩, ⟨3, 1, 0, [], true, true, 0, 1⟩]

/-- A two-take group in which every take is flagged incomplete. -/
def allIncompleteMetrics : List TakeMetrics :=
  [⟨1, 1, 0, [], true, false, 0, 0⟩, ⟨1, 1, 0, [], true, false, 0, 1⟩]

/-- The spec's validation-override example: two takes, the last one
completion-marked with fewer hesitations, the judge preferring take 0. -/
def c5Metrics : List TakeMetrics :=
  [⟨3, 1, 2, [], false, false, 0, 0⟩, ⟨3, 1, 1, [], false, true, 0, 1⟩]

/-- The spec's fallback example: a 3-take group where only take 2
(0-indexed) has a completion marker and is not incomplete. -/
def c4Metrics : List TakeMetrics :=
  [⟨1, 1, 0, [], false, false, 0, 0⟩, ⟨1, 1, 0, [], true, false, 0, 1⟩,
    ⟨1, 1, 0, [], false, true, 0, 2⟩]

/-- A well-formed one-segment input used as the concrete witness for C1
and C8. -/
def simpleSeg : Segment := ⟨1, 2, "a", 1⟩

/-- A zero-length segment: allowed by the claim's `end ≥ start`, lying
inside `[0, 2]`. -/
def degenSeg : Segment := ⟨1, 1, "a", 1⟩

/-- The gap relation guaranteed between consecutive merged pairs: the next
range starts strictly beyond the current end plus the 0.05 s tolerance. -/
def bigGap (a b : TimeRange × Segment) : Prop :=
  a.1.«end» + 1/20 < b.1.start

/-! ## Claim-side specifications for the silence detector

These three definitions transcribe the specification's description of
`detect_silences` (spec §4.5); the claim C7 states that the implementation
returns exactly their concatenation. -/

/-- Spec side: "a leading silence range iff the first segment starts later
than the threshold". -/
def leadingSilenceSpec (segments : List Segment) (th : ℚ) : List TimeRange :=
  match segments.head? with
  | none => []
  | some s => if th < s.start then [⟨0, s.start⟩] else []

/-- Spec side: "one range per inter-segment gap exceeding the threshold". -/
def gapSilencesSpec (segments : List Segment) (th : ℚ) : List TimeRange :=
  (segments.zip segments.tail).filterMap fun ab =>
    if th < ab.2.start - ab.1.«end» then some ⟨ab.1.«end», ab.2.start⟩ else none

/-- Spec side: "a trailing range iff duration minus the last segment's end
exceeds the threshold". -/
def trailingSilenceSpec (segments : List Segment) (videoDuration th : ℚ) : List TimeRange :=
  match segments.getLast? with
  | none => []
  | some s =>
      if th < videoDuration - s.«end» then [⟨s.«end», videoDuration⟩] else []

lemma middleSilences_eq_gapSpec (th : ℚ) :
    ∀ l : List Segment, middleSilences l th = gapSilencesSpec l th := by
  intro l
  induction l with
  | nil => rfl
  | cons a t ih =>
    cases t with
    | nil => rfl
    | cons b rest =>
      simp only [middleSilences, gapSilencesSpec, List.tail_cons, List.zip_cons_cons,
        List.filterMap_cons] at ih ⊢
      by_cases h : th < b.start - a.«end»
      · simp [h, ih]
      · simp [h, ih]

/-- C7: `detect_silences` returns exactly the leading range (iff the first
segment starts after the threshold), one range per consecutive pair whose
gap exceeds the threshold, and the trailing range (iff the duration minus
the last end exceeds the threshold), in that order; on segments
(0,2), (2.2,4), (10,12) with duration 15 and threshold 1.5 it returns
exactly [(4,10), (12,15)]. -/
theorem claim_C7 (segments : List Segment) (videoDuration silenceThreshold : ℚ) :
    detect_silences segments videoDuration silenceThreshold =
      leadingSilenceSpec segments silenceThreshold ++
        gapSilencesSpec segments silenceThreshold ++
        trailingSilenceSpec segments videoDuration silenceThreshold ∧
    detect_silences exampleSegments 15 (3/2) = [⟨4, 10⟩, ⟨12, 15⟩] := by
  constructor
  · simp only [detect_silences, leadingSilenceSpec, trailingSilenceSpec,
      middleSilences_eq_gapSpec]
    cases segments <;> rfl
  · norm_num [detect_silences, middleSilences, exampleSegments, List.getLast?]

/-! ## Correctness of the recording-block segmenter (claim C6) -/

lemma blocksLoop_spec (segs : List Segment) (k : ℕ) :
    ∀ bs i : ℕ, bs ≤ i → i + k = segs.length - 1 →
      (∀ t, bs ≤ t → t < i → gapAt segs t ≤ 3) →
      (bs = 0 ∨ 3 < gapAt segs (bs - 1)) →
      blocksLoop segs bs (List.range' i k) ≠ [] ∧
      (∀ q ∈ (blocksLoop segs bs (List.range' i k)).head?, q.1 = bs) ∧
      (∀ q ∈ (blocksLoop segs bs (List.range' i k)).getLast?, q.2 = segs.length - 1) ∧
      List.Chain' (fun p q => q.1 = p.2 + 1) (blocksLoop segs bs (List.range' i k)) ∧
      ∀ p ∈ blocksLoop segs bs (List.range' i k),
        p.1 ≤ p.2 ∧ p.2 ≤ segs.length - 1 ∧
        (∀ t, p.1 ≤ t → t < p.2 → gapAt segs t ≤ 3) ∧
        (p.2 = segs.length - 1 ∨ 3 < gapAt segs p.2) ∧
        (p.1 = 0 ∨ 3 < gapAt segs (p.1 - 1)) := by
  induction k with
  | zero =>
    intro bs i hbsi hsum hgaps hopen
    have hi : i = segs.length - 1 := by omega
    subst hi
    rw [List.range'_zero]
    refine ⟨by simp [blocksLoop], ?_, ?_, ?_, ?_⟩
    · intro q hq
      simp [blocksLoop] at hq
      subst hq
      rfl
    · intro q hq
      simp [blocksLoop] at hq
      subst hq
      rfl
    · simp [blocksLoop]
    · intro p hp
      simp [blocksLoop] at hp
      subst hp
      exact ⟨hbsi, le_rfl, fun t ht ht' => hgaps t ht ht', Or.inl rfl, hopen⟩
  | succ k ih =>
    intro bs i hbsi hsum hgaps hopen
    rw [List.range'_succ]
    by_cases hg : 3 < gapAt segs i
    · have hstep := ih (i + 1) (i + 1) le_rfl (by omega)
        (fun t ht ht' => absurd (lt_of_lt_of_le ht' (le_refl _)) (by omega))
        (Or.inr (by simpa using hg))
      obtain ⟨hne, hhead, hlast, hchain, hmem⟩ := hstep
      have hrw : blocksLoop segs bs (i :: List.range' (i + 1) k) =
          (bs, i) :: blocksLoop segs (i + 1) (List.range' (i + 1) k) := by
        simp [blocksLoop, hg]
      rw [hrw]
      refine ⟨by simp, by simp, ?_, ?_, ?_⟩
      · intro q hq
        cases hL : blocksLoop segs (i + 1) (List.range' (i + 1) k) with
        | nil => exact absurd hL hne
        | cons x xs =>
          rw [hL, List.getLast?_cons_cons] at hq
          exact hlast q (by rw [hL]; exact hq)
      · rw [List.chain'_cons']
        refine ⟨?_, hchain⟩
        intro y hy
        have := hhead y hy
        simp [this]
      · intro p hp
        rcases List.mem_cons.1 hp with h | h
        · subst h
          exact ⟨hbsi, by omega, fun t ht ht' => hgaps t ht ht', Or.inr hg, hopen⟩
        · exact hmem p h
    · have hstep := ih bs (i + 1) (by omega) (by omega)
        (fun t ht ht' => by
          rcases Nat.lt_succ_iff_lt_or_eq.1 ht' with h | h
          · exact hgaps t ht h
          · subst h; exact le_of_not_lt hg)
        hopen
      have hrw : blocksLoop segs bs (i :: List.range' (i + 1) k) =
          blocksLoop segs bs (List.range' (i + 1) k) := by
        simp [blocksLoop, hg]
      rw [hrw]
      exact hstep

/-- C6: on the empty list `_find_recording_blocks` returns `[]`; on a
non-empty list it returns exactly the maximal runs of consecutive indices
whose internal gaps are all ≤ 3.0 s: the blocks start at 0, are consecutive
(each next block starts right after the previous one ends), the last block
ends at the last index, every internal gap of a block is ≤ 3.0, a block is
closed at `i` exactly when the gap after `i` exceeds 3.0 (equivalently: a
non-final block's closing gap exceeds 3.0 and a non-initial block is opened
after a gap exceeding 3.0); four segments with gaps [0.5, 1.0, 5.0] yield
exactly the two blocks (0,2) and (3,3). -/
theorem claim_C6 (segments : List Segment) :
    (segments = [] → find_recording_blocks segments = []) ∧
    (segments ≠ [] →
      find_recording_blocks segments ≠ [] ∧
      (∀ q ∈ (find_recording_blocks segments).head?, q.1 = 0) ∧
      (∀ q ∈ (find_recording_blocks segments).getLast?, q.2 = segments.length - 1) ∧
      List.Chain' (fun p q => q.1 = p.2 + 1) (find_recording_blocks segments) ∧
      ∀ p ∈ find_recording_blocks segments,
        p.1 ≤ p.2 ∧ p.2 ≤ segments.length - 1 ∧
        (∀ t, p.1 ≤ t → t < p.2 → gapAt segments t ≤ 3) ∧
        (p.2 = segments.length - 1 ∨ 3 < gapAt segments p.2) ∧
        (p.1 = 0 ∨ 3 < gapAt segments (p.1 - 1))) ∧
    find_recording_blocks fourSegments = [(0, 2), (3, 3)] := by
  refine ⟨?_, ?_, ?_⟩
  · intro h; subst h; rfl
  · intro h
    have hfr : find_recording_blocks segments =
        blocksLoop segments 0 (List.range' 0 (segments.length - 1)) := by
      rw [find_recording_blocks, if_neg (by simpa [List.isEmpty_iff] using h),
        List.range_eq_range']
    rw [hfr]
    exact blocksLoop_spec segments (segments.length - 1) 0 0 le_rfl (by omega)
      (by omega) (Or.inl rfl)
  · norm_num [find_recording_blocks, blocksLoop, gapAt, fourSegments, List.range_succ]

/-- Witness for C6 at the concrete four-segment input. -/
theorem claim_C6_witness :
    find_recording_blocks fourSegments ≠ [] :=
  ((claim_C6 fourSegments).2.1 (by simp [fourSegments])).1

/-! ## Properties of the descending scan and the validation rules -/

lemma scanBack_eq_none (p : TakeMetrics → Bool) (ml : List TakeMetrics) :
    ∀ n, (∀ j, j < n → p (ml.getD j default) = false) → scanBack p ml n = none := by
  intro n
  induction n with
  | zero => intro _; rfl
  | succ n ih =>
    intro h
    have hn := h n (Nat.lt_succ_self n)
    simp only [scanBack]
    rw [hn, if_neg Bool.false_ne_true]
    exact ih fun j hj => h j (by omega)

lemma scanBack_none_forall (p : TakeMetrics → Bool) (ml : List TakeMetrics) :
    ∀ n, scanBack p ml n = none → ∀ j, j < n → p (ml.getD j default) = false := by
  intro n
  induction n with
  | zero => intro _ j hj; omega
  | succ n ih =>
    intro h j hj
    simp only [scanBack] at h
    cases hp : p (ml.getD n default) with
    | true => rw [hp, if_pos rfl] at h; exact absurd h (by simp)
    | false =>
      rw [hp, if_neg Bool.false_ne_true] at h
      rcases Nat.lt_succ_iff_lt_or_eq.1 hj with hj' | hj'
      · exact ih h j hj'
      · subst hj'; exact hp

lemma scanBack_some (p : TakeMetrics → Bool) (ml : List TakeMetrics) :
    ∀ n i, scanBack p ml n = some i →
      i < n ∧ p (ml.getD i default) = true ∧
        ∀ j, i < j → j < n → p (ml.getD j default) = false := by
  intro n
  induction n with
  | zero => intro i h; exact absurd h (by simp [scanBack])
  | succ n ih =>
    intro i h
    simp only [scanBack] at h
    cases hp : p (ml.getD n default) with
    | true =>
      rw [hp, if_pos rfl] at h
      simp only [Option.some.injEq] at h
      subst h
      exact ⟨Nat.lt_succ_self _, hp, fun j hj1 hj2 => absurd hj2 (by omega)⟩
    | false =>
      rw [hp, if_neg Bool.false_ne_true] at h
      obtain ⟨h1, h2, h3⟩ := ih i h
      refine ⟨by omega, h2, fun j hj1 hj2 => ?_⟩
      rcases Nat.lt_succ_iff_lt_or_eq.1 hj2 with hj' | hj'
      · exact h3 j hj1 hj'
      · subst hj'; exact hp

/-- Rule 1 of `_validate_decision` fires and returns immediately whenever
the judge chose a non-last take, the last take has a completion marker, the
chosen one does not, and the last take's hesitation count is ≤ the chosen
one's — regardless of any incompleteness flags. -/
lemma validate_decision_rule1 (metricsList : List TakeMetrics) (decision : ℕ)
    (hne : metricsList ≠ [])
    (h1 : decision ≠ metricsList.length - 1)
    (h2 : (metricsList.getLastD default).has_completion_marker = true)
    (h3 : (metricsList.getD decision default).has_completion_marker = false)
    (h4 : (metricsList.getLastD default).hesitation_count ≤
      (metricsList.getD decision default).hesitation_count) :
    validate_decision decision metricsList =
      (metricsList.length - 1,
        some "last take is complete with fewer/equal hesitations") := by
  unfold validate_decision
  rw [if_neg hne, if_pos ⟨h1, h2, by rw [h3]; exact Bool.false_ne_true, h4⟩]

/-- Counterexample to C2 as stated: on `cexMetrics` with judge decision 0
all of the claim's conditions hold (rule 1's conditions, the last take is
flagged incomplete, and a non-incomplete take exists), yet
`_validate_decision` does not return the most recent non-incomplete take
with reason "avoiding incomplete take": rule 1 returns first. -/
theorem claim_C2_cex :
    ((0 : ℕ) ≠ cexMetrics.length - 1 ∧
      (cexMetrics.getLastD default).has_completion_marker = true ∧
      (cexMetrics.getD 0 default).has_completion_marker = false ∧
      (cexMetrics.getLastD default).hesitation_count ≤
        (cexMetrics.getD 0 default).hesitation_count ∧
      (cexMetrics.getLastD default).incomplete_sentence = true ∧
      ∃ m ∈ cexMetrics, m.incomplete_sentence = false) ∧
    validate_decision 0 cexMetrics ≠ (0, some "avoiding incomplete take") ∧
    validate_decision 0 cexMetrics =
      (1, some "last take is complete with fewer/equal hesitations") := by
  decide

/-- C2 (amended): under the claim's hypotheses — rule 1's conditions hold,
the last take is itself flagged incomplete, and some take is not
incomplete — `_validate_decision` returns the last take's index with reason
"last take is complete with fewer/equal hesitations": rule 1 returns
immediately, so rule 2 can never override it. -/
theorem claim_C2 (metricsList : List TakeMetrics) (decision : ℕ)
    (hne : metricsList ≠ [])
    (hd : decision < metricsList.length)
    (h1 : decision ≠ metricsList.length - 1)
    (h2 : (metricsList.getLastD default).has_completion_marker = true)
    (h3 : (metricsList.getD decision default).has_completion_marker = false)
    (h4 : (metricsList.getLastD default).hesitation_count ≤
      (metricsList.getD decision default).hesitation_count)
    (h5 : (metricsList.getLastD default).incomplete_sentence = true)
    (h6 : ∃ m ∈ metricsList, m.incomplete_sentence = false) :
    validate_decision decision metricsList =
      (metricsList.length - 1,
        some "last take is complete with fewer/equal hesitations") :=
  validate_decision_rule1 metricsList decision hne h1 h2 h3 h4

/-- Witness for C2 (amended) at the concrete counterexample input. -/
theorem claim_C2_witness :
    validate_decision 0 cexMetrics =
      (cexMetrics.length - 1,
        some "last take is complete with fewer/equal hesitations") :=
  claim_C2 cexMetrics 0 (by decide) (by decide) (by decide) (by decide) (by decide)
    (by decide) (by decide) (by decide)

/-- C10: when every take of the group is flagged incomplete and the
decision is the last index, `_validate_decision` returns the decision
unchanged with no override reason — rule 1 is skipped (the decision is the
last take) and rule 2's backward scan finds no non-incomplete take. -/
theorem claim_C10 (metricsList : List TakeMetrics)
    (hne : metricsList ≠ [])
    (hall : ∀ m ∈ metricsList, m.incomplete_sentence = true) :
    validate_decision (metricsList.length - 1) metricsList =
      (metricsList.length - 1, none) := by
  have hmem : ∀ j, j < metricsList.length → metricsList.getD j default ∈ metricsList := by
    intro j hj
    rw [List.getD_eq_getElem _ _ hj]
    exact List.getElem_mem hj
  have hscan : scanBack (fun m => !m.incomplete_sentence) metricsList metricsList.length
      = none :=
    scanBack_eq_none _ _ _ fun j hj => by
      simp only [hall _ (hmem j hj), Bool.not_true]
  have hlen : 0 < metricsList.length := List.length_pos.2 hne
  have hincomplete : (metricsList.getD (metricsList.length - 1) default).incomplete_sentence
      = true :=
    hall _ (hmem _ (by omega))
  unfold validate_decision
  rw [if_neg hne, if_neg (by simp), if_pos hincomplete, hscan]

/-- Witness for C10 at a concrete all-incomplete group. -/
theorem claim_C10_witness :
    validate_decision (allIncompleteMetrics.length - 1) allIncompleteMetrics =
      (allIncompleteMetrics.length - 1, none) :=
  claim_C10 allIncompleteMetrics (by decide) (by decide)

/-- C5: through the selector's stage 3, rule 1's conditions force the final
decision to the last take's index, with a returned reason containing
"last take is complete" (namely "override: last take is complete with
fewer/equal hesitations"). -/
theorem claim_C5 (metricsList : List TakeMetrics) (decision : ℕ) (reasoning : String)
    (hne : metricsList ≠ [])
    (hd : decision < metricsList.length)
    (h1 : decision ≠ metricsList.length - 1)
    (h2 : (metricsList.getLastD default).has_completion_marker = true)
    (h3 : (metricsList.getD decision default).has_completion_marker = false)
    (h4 : (metricsList.getLastD default).hesitation_count ≤
      (metricsList.getD decision default).hesitation_count) :
    (select_best_take_stage3 (some (decision, reasoning)) metricsList).1 =
      metricsList.length - 1 ∧
    ∃ a b, (select_best_take_stage3 (some (decision, reasoning)) metricsList).2 =
      a ++ "last take is complete" ++ b := by
  have hv := validate_decision_rule1 metricsList decision hne h1 h2 h3 h4
  have hs : select_best_take_stage3 (some (decision, reasoning)) metricsList =
      (metricsList.length - 1,
        "override: " ++ "last take is complete with fewer/equal hesitations") := by
    simp only [select_best_take_stage3, hv]
  refine ⟨by rw [hs], "override: ", " with fewer/equal hesitations", ?_⟩
  rw [hs]
  show "override: " ++ "last take is complete with fewer/equal hesitations" =
    "override: " ++ "last take is complete" ++ " with fewer/equal hesitations"
  decide

/-- Witness for C5: judge decision 0 on the two-take group is overridden to
index 1. -/
theorem claim_C5_witness :
    (select_best_take_stage3 (some (0, "prefers the first take")) c5Metrics).1 =
      c5Metrics.length - 1 ∧
    ∃ a b, (select_best_take_stage3 (some (0, "prefers the first take")) c5Metrics).2 =
      a ++ "last take is complete" ++ b :=
  claim_C5 c5Metrics 0 "prefers the first take" (by decide) (by decide) (by decide)
    (by decide) (by decide) (by decide)

/-- C4: with no judge available, the selector returns the most recent take
that has a completion marker and is not flagged incomplete — or the last
index when no take qualifies — with reason
"rule-based: selected last complete take". -/
theorem claim_C4 (metricsList : List TakeMetrics) (hne : metricsList ≠ []) :
    (select_best_take_stage3 none metricsList).2 =
      "rule-based: selected last complete take" ∧
    (select_best_take_stage3 none metricsList).1 < metricsList.length ∧
    ((qualifiesTake (metricsList.getD (select_best_take_stage3 none metricsList).1 default)
        = true ∧
      ∀ j, (select_best_take_stage3 none metricsList).1 < j → j < metricsList.length →
        qualifiesTake (metricsList.getD j default) = false) ∨
     ((select_best_take_stage3 none metricsList).1 = metricsList.length - 1 ∧
      ∀ j, j < metricsList.length → qualifiesTake (metricsList.getD j default) = false)) := by
  have hlen : 0 < metricsList.length := List.length_pos.2 hne
  have hts : select_best_take_stage3 none metricsList =
      (fallback_selection metricsList, "rule-based: selected last complete take") := rfl
  rw [hts]
  unfold fallback_selection
  cases hscan : scanBack qualifiesTake metricsList metricsList.length with
  | some i =>
    obtain ⟨hi, hp, hafter⟩ := scanBack_some _ _ _ _ hscan
    exact ⟨rfl, hi, Or.inl ⟨hp, hafter⟩⟩
  | none =>
    dsimp only
    exact ⟨rfl, by omega, Or.inr ⟨rfl, scanBack_none_forall _ _ _ hscan⟩⟩

/-- Witness for C4: on the concrete 3-take group the selector returns
index 2 with the rule-based reason. -/
theorem claim_C4_witness :
    (select_best_take_stage3 none c4Metrics).2 =
      "rule-based: selected last complete take" ∧
    (select_best_take_stage3 none c4Metrics).1 = 2 :=
  ⟨(claim_C4 c4Metrics (by decide)).1, by decide⟩

/-! ## Properties of the range reconciliation (claims C1, C8, C9) -/

/-- Any predicate preserved by `mergeTwo` holds for every output of the
merge loop when it holds for all inputs. -/
lemma mergeLoop_mem_of_pred (Q : TimeRange × Segment → Prop)
    (hQ : ∀ a b, Q a → Q b → Q (mergeTwo a b)) :
    ∀ (rest : List (TimeRange × Segment)) (cur : TimeRange × Segment),
      Q cur → (∀ p ∈ rest, Q p) → ∀ p ∈ mergeLoop cur rest, Q p := by
  intro rest
  induction rest with
  | nil =>
    intro cur hc _ p hp
    rw [mergeLoop, List.mem_singleton] at hp
    subst hp
    exact hc
  | cons q rest ih =>
    intro cur hc hall p hp
    simp only [mergeLoop] at hp
    by_cases hcond : q.1.start ≤ cur.1.«end» + 1/20
    · rw [if_pos hcond] at hp
      exact ih (mergeTwo cur q) (hQ _ _ hc (hall q (List.mem_cons_self _ _)))
        (fun r hr => hall r (List.mem_cons_of_mem _ hr)) p hp
    · rw [if_neg hcond] at hp
      rcases List.mem_cons.1 hp with h | h
      · subst h; exact hc
      · exact ih q (hall q (List.mem_cons_self _ _))
          (fun r hr => hall r (List.mem_cons_of_mem _ hr)) p h

/-- On an input sorted by range start, the merge loop yields a non-empty
list headed by the current start, still sorted by start, in which each
consecutive pair is separated by strictly more than the merge tolerance. -/
lemma mergeLoop_sorted_chain :
    ∀ (rest : List (TimeRange × Segment)) (cur : TimeRange × Segment),
      List.Sorted pairLE (cur :: rest) →
      mergeLoop cur rest ≠ [] ∧
      (∀ q ∈ (mergeLoop cur rest).head?, q.1.start = cur.1.start) ∧
      List.Sorted pairLE (mergeLoop cur rest) ∧
      List.Chain' bigGap (mergeLoop cur rest) := by
  intro rest
  induction rest with
  | nil =>
    intro cur _
    refine ⟨by simp [mergeLoop], ?_, by simp [mergeLoop], by simp [mergeLoop]⟩
    intro q hq
    simp only [mergeLoop, List.head?_cons, Option.mem_def, Option.some.injEq] at hq
    rw [← hq]
  | cons q rest ih =>
    intro cur hs
    have hcur_all : ∀ b ∈ q :: rest, pairLE cur b := (List.sorted_cons.1 hs).1
    have hs' : List.Sorted pairLE (q :: rest) := (List.sorted_cons.1 hs).2
    simp only [mergeLoop]
    by_cases hcond : q.1.start ≤ cur.1.«end» + 1/20
    · rw [if_pos hcond]
      have hs2 : List.Sorted pairLE (mergeTwo cur q :: rest) := by
        rw [List.sorted_cons]
        exact ⟨fun b hb => hcur_all b (List.mem_cons_of_mem _ hb),
          (List.sorted_cons.1 hs').2⟩
      obtain ⟨hne, hhead, hsorted, hchain⟩ := ih (mergeTwo cur q) hs2
      exact ⟨hne, fun r hr => hhead r hr, hsorted, hchain⟩
    · rw [if_neg hcond]
      obtain ⟨hne, hhead, hsorted, hchain⟩ := ih q hs'
      have hstart : ∀ r ∈ mergeLoop q rest, pairLE cur r := by
        refine mergeLoop_mem_of_pred (fun r => pairLE cur r) (fun a b ha _ => ha) rest q
          (hcur_all q (List.mem_cons_self _ _)) ?_
        intro r hr
        exact hcur_all r (List.mem_cons_of_mem _ hr)
      refine ⟨by simp, ?_, ?_, ?_⟩
      · intro r hr
        simp only [List.head?_cons, Option.mem_def, Option.some.injEq] at hr
        rw [← hr]
      · rw [List.sorted_cons]
        exact ⟨hstart, hsorted⟩
      · rw [List.chain'_cons']
        refine ⟨?_, hchain⟩
        intro y hy
        have hys := hhead y hy
        show cur.1.«end» + 1/20 < y.1.start
        rw [hys]
        exact lt_of_not_le hcond

/-- `mergePairs` always returns a list sorted by range start in which
consecutive pairs are separated by more than the merge tolerance. -/
lemma mergePairs_sorted_chain (paired : List (TimeRange × Segment)) :
    List.Sorted pairLE (mergePairs paired) ∧ List.Chain' bigGap (mergePairs paired) := by
  unfold mergePairs
  cases h : List.insertionSort pairLE paired with
  | nil => simp
  | cons c rest =>
    have hs : List.Sorted pairLE (c :: rest) := h ▸ List.sorted_insertionSort pairLE paired
    obtain ⟨_, _, hsorted, hchain⟩ := mergeLoop_sorted_chain rest c hs
    exact ⟨hsorted, hchain⟩

/-- Any predicate preserved by `mergeTwo` holds for every output of
`mergePairs` when it holds for all inputs. -/
lemma mergePairs_mem_of_pred (Q : TimeRange × Segment → Prop)
    (hQ : ∀ a b, Q a → Q b → Q (mergeTwo a b))
    (paired : List (TimeRange × Segment)) (hall : ∀ p ∈ paired, Q p) :
    ∀ p ∈ mergePairs paired, Q p := by
  unfold mergePairs
  cases h : List.insertionSort pairLE paired with
  | nil => intro p hp; simp at hp
  | cons c rest =>
    have hmem : ∀ p ∈ c :: rest, Q p := by
      intro p hp
      exact hall p ((List.mem_insertionSort _).1 (h ▸ hp))
    exact mergeLoop_mem_of_pred Q hQ rest c (hmem c (List.mem_cons_self _ _))
      (fun p hp => hmem p (List.mem_cons_of_mem _ hp))

/-- On an input whose consecutive pairs are already separated by more than
the tolerance, the merge loop is the identity. -/
lemma mergeLoop_of_chain :
    ∀ (rest : List (TimeRange × Segment)) (cur : TimeRange × Segment),
      List.Chain' bigGap (cur :: rest) → mergeLoop cur rest = cur :: rest := by
  intro rest
  induction rest with
  | nil => intro cur _; rfl
  | cons q rest ih =>
    intro cur hc
    rw [List.chain'_cons] at hc
    simp only [mergeLoop]
    rw [if_neg (not_le.2 hc.1), ih q hc.2]

/-- Sorted by start plus consecutive separation gives full pairwise
disjointness. -/
lemma pairwise_disjoint_of_chain :
    ∀ l : List (TimeRange × Segment), List.Sorted pairLE l → List.Chain' bigGap l →
      List.Pairwise (fun a b : TimeRange × Segment => a.1.«end» < b.1.start) l := by
  intro l
  induction l with
  | nil => intro _ _; exact List.Pairwise.nil
  | cons a t ih =>
    intro hs hc
    have ha := (List.sorted_cons.1 hs).1
    have hs' := (List.sorted_cons.1 hs).2
    rw [List.chain'_cons'] at hc
    refine List.Pairwise.cons ?_ (ih hs' hc.2)
    intro b hb
    cases t with
    | nil => simp at hb
    | cons c t' =>
      have h1 : bigGap a c := hc.1 c rfl
      have h2 : pairLE c b := by
        rcases List.mem_cons.1 hb with h | h
        · subst h; exact le_refl _
        · exact (List.sorted_cons.1 hs').1 b h
      have h3 : a.1.«end» < a.1.«end» + 1/20 := by linarith
      exact lt_of_lt_of_le (lt_trans h3 h1) h2

/-! ## Properties of the structured-response parse (claim C3) -/

/-- Any decision extracted by the parse loop comes either from the initial
accumulator or from some `DECISION:` line of the input. -/
lemma parseLoop_decision_source :
    ∀ (lines : List (List Char)) (d0 : Option ℤ) (r0 : String) (v : ℤ),
      (parseLoop lines d0 r0).1 = some v →
      d0 = some v ∨ ∃ line ∈ lines, decisionVal (pyStripL line) = some v := by
  intro lines
  induction lines with
  | nil => intro d0 r0 v h; exact Or.inl h
  | cons line rest ih =>
    intro d0 r0 v h
    simp only [parseLoop] at h
    by_cases hd : startsWithL "DECISION:".data (pyUpperL (pyStripL line)) = true
    · rw [if_pos hd] at h
      cases hdv : decisionVal (pyStripL line) with
      | some w =>
        rw [hdv] at h
        rcases ih _ _ _ h with h' | ⟨l, hl, hval⟩
        · simp only [Option.some.injEq] at h'
          exact Or.inr ⟨line, List.mem_cons_self _ _, by rw [hdv, h']⟩
        · exact Or.inr ⟨l, List.mem_cons_of_mem _ hl, hval⟩
      | none =>
        rw [hdv] at h
        rcases ih _ _ _ h with h' | ⟨l, hl, hval⟩
        · exact Or.inl h'
        · exact Or.inr ⟨l, List.mem_cons_of_mem _ hl, hval⟩
    · rw [if_neg hd] at h
      by_cases hr : startsWithL "REASONING:".data (pyUpperL (pyStripL line)) = true
      · rw [if_pos hr] at h
        rcases ih _ _ _ h with h' | ⟨l, hl, hval⟩
        · exact Or.inl h'
        · exact Or.inr ⟨l, List.mem_cons_of_mem _ hl, hval⟩
      · rw [if_neg hr] at h
        rcases ih _ _ _ h with h' | ⟨l, hl, hval⟩
        · exact Or.inl h'
        · exact Or.inr ⟨l, List.mem_cons_of_mem _ hl, hval⟩

/-- C3 (amended): for every response and `numTakes ≥ 1`, the parsed
decision lies in `[0, numTakes)`; and when no `DECISION:` line of the
response yields an in-range 0-indexed value, the result is the last take
with reason "Fallback: defaulting to last take" (with a capital F — the
claim's lowercase "fallback: ..." does not match the code). -/
theorem claim_C3 (response : String) (numTakes : ℕ) (h : 1 ≤ numTakes) :
    (0 ≤ (parse_structured_response response numTakes).1 ∧
      (parse_structured_response response numTakes).1 < (numTakes : ℤ)) ∧
    ((∀ line ∈ splitOnChar '\n' (pyStripL response.data), ∀ v : ℤ,
        decisionVal (pyStripL line) = some v → ¬(0 ≤ v ∧ v < (numTakes : ℤ))) →
      parse_structured_response response numTakes =
        ((numTakes : ℤ) - 1, "Fallback: defaulting to last take")) := by
  simp only [parse_structured_response]
  cases hp : (parseLoop (splitOnChar '\n' (pyStripL response.data)) none "").1 with
  | none =>
    dsimp only
    exact ⟨⟨by omega, by omega⟩, fun _ => rfl⟩
  | some v =>
    dsimp only
    by_cases hv : 0 ≤ v ∧ v < (numTakes : ℤ)
    · rw [if_pos hv]
      refine ⟨⟨hv.1, hv.2⟩, fun hall => ?_⟩
      rcases parseLoop_decision_source _ _ _ _ hp with h' | ⟨l, hl, hval⟩
      · exact absurd h' (by simp)
      · exact absurd hv (hall l hl v hval)
    · rw [if_neg hv]
      exact ⟨⟨by omega, by omega⟩, fun _ => rfl⟩

/-- Witness for C3 at the empty response with one take. -/
theorem claim_C3_witness :
    (0 ≤ (parse_structured_response "" 1).1 ∧
      (parse_structured_response "" 1).1 < (1 : ℤ)) ∧
    parse_structured_response "" 1 = ((1 : ℤ) - 1, "Fallback: defaulting to last take") := by
  have h := claim_C3 "" 1 (le_refl 1)
  refine ⟨h.1, h.2 ?_⟩
  intro line hl v hv
  rw [show splitOnChar '\n' (pyStripL "".data) = [[]] from by decide] at hl
  simp only [List.mem_singleton] at hl
  subst hl
  rw [show decisionVal (pyStripL []) = none from by decide] at hv
  exact absurd hv (by simp)

/-- Counterexample to C3 as stated: on the empty response (which contains
no `DECISION:` line) with one take, the returned reason is
"Fallback: defaulting to last take", not the claimed lowercase
"fallback: defaulting to last take". -/
theorem claim_C3_cex :
    parse_structured_response "" 1 = (0, "Fallback: defaulting to last take") ∧
    (parse_structured_response "" 1).2 ≠ "fallback: defaulting to last take" := by
  decide

lemma merge_overlapping_ranges_eq (ranges : List TimeRange) (segments : List Segment)
    (hr : ranges ≠ []) :
    merge_overlapping_ranges ranges segments =
      ((mergePairs (ranges.zip segments)).map Prod.fst,
        (mergePairs (ranges.zip segments)).map Prod.snd) := by
  simp only [merge_overlapping_ranges, if_neg hr]

/-- C9: re-running the sort-and-merge step on its own output returns it
unchanged, and consecutive output ranges are separated by strictly more
than the 0.05 s tolerance. -/
theorem claim_C9 (ranges : List TimeRange) (segments : List Segment) :
    merge_overlapping_ranges (merge_overlapping_ranges ranges segments).1
        (merge_overlapping_ranges ranges segments).2 =
      merge_overlapping_ranges ranges segments ∧
    List.Chain' (fun a b : TimeRange => a.«end» + 1/20 < b.start)
      (merge_overlapping_ranges ranges segments).1 := by
  by_cases hr : ranges = []
  · subst hr
    exact ⟨rfl, by simp [merge_overlapping_ranges]⟩
  · rw [merge_overlapping_ranges_eq ranges segments hr]
    obtain ⟨hsorted, hchain⟩ := mergePairs_sorted_chain (ranges.zip segments)
    constructor
    · cases hP : mergePairs (ranges.zip segments) with
      | nil => simp [merge_overlapping_ranges]
      | cons c rest =>
        rw [hP] at hsorted hchain
        rw [merge_overlapping_ranges_eq _ _ (by simp)]
        have hzip : ((c :: rest).map Prod.fst).zip ((c :: rest).map Prod.snd) =
            c :: rest := by
          rw [List.zip_map']
          simp
        rw [hzip]
        have hmp : mergePairs (c :: rest) = c :: rest := by
          unfold mergePairs
          rw [List.Sorted.insertionSort_eq hsorted]
          exact mergeLoop_of_chain rest c hchain
        rw [hmp]
    · rw [List.chain'_map]
      exact hchain

/-- C1: the keep-range list built by `analyze` is sorted by start and
pairwise non-overlapping, the kept-segment list has the same length, and
(for well-formed inputs: non-negative buffers, segments with
`0 ≤ start ≤ end ≤ duration`) the i-th kept segment's span is contained in
the i-th keep range.  `rangesToRemove` abstracts the non-best-take spans,
so the statement covers every outcome of retake selection. -/
theorem claim_C1 (rangesToRemove : List TimeRange) (segments : List Segment)
    (videoDuration startBuffer endBuffer : ℚ) :
    List.Sorted (fun a b : TimeRange => a.start ≤ b.start)
      (analyzeKeep rangesToRemove segments videoDuration startBuffer endBuffer).1 ∧
    List.Pairwise (fun a b : TimeRange => a.«end» < b.start)
      (analyzeKeep rangesToRemove segments videoDuration startBuffer endBuffer).1 ∧
    (analyzeKeep rangesToRemove segments videoDuration startBuffer endBuffer).1.length =
      (analyzeKeep rangesToRemove segments videoDuration startBuffer endBuffer).2.length ∧
    (0 ≤ startBuffer → 0 ≤ endBuffer →
      (∀ s ∈ segments, 0 ≤ s.start ∧ s.start ≤ s.«end» ∧ s.«end» ≤ videoDuration) →
      ∀ i, i < (analyzeKeep rangesToRemove segments videoDuration startBuffer
          endBuffer).1.length →
        (((analyzeKeep rangesToRemove segments videoDuration startBuffer
            endBuffer).1.getD i default).start ≤
          ((analyzeKeep rangesToRemove segments videoDuration startBuffer
            endBuffer).2.getD i default).start ∧
        ((analyzeKeep rangesToRemove segments videoDuration startBuffer
            endBuffer).2.getD i default).«end» ≤
          ((analyzeKeep rangesToRemove segments videoDuration startBuffer
            endBuffer).1.getD i default).«end»)) := by
  have hak : analyzeKeep rangesToRemove segments videoDuration startBuffer endBuffer =
      merge_overlapping_ranges
        ((segments.filter fun seg => !shouldRemove rangesToRemove seg).map
          (bufferedRange videoDuration startBuffer endBuffer))
        (segments.filter fun seg => !shouldRemove rangesToRemove seg) := rfl
  by_cases h0 : (segments.filter fun seg => !shouldRemove rangesToRemove seg).map
      (bufferedRange videoDuration startBuffer endBuffer) = []
  · rw [hak]
    simp only [merge_overlapping_ranges, if_pos h0]
    exact ⟨by simp, by simp, by simp, fun _ _ _ i hi => absurd hi (by simp)⟩
  · rw [hak, merge_overlapping_ranges_eq _ _ h0]
    dsimp only
    obtain ⟨hsorted, hchain⟩ := mergePairs_sorted_chain
      (((segments.filter fun seg => !shouldRemove rangesToRemove seg).map
        (bufferedRange videoDuration startBuffer endBuffer)).zip
        (segments.filter fun seg => !shouldRemove rangesToRemove seg))
    refine ⟨List.pairwise_map.2 hsorted,
      List.pairwise_map.2 (pairwise_disjoint_of_chain _ hsorted hchain), by simp, ?_⟩
    intro hsb heb hseg i hi
    have hQ : ∀ p ∈ mergePairs
        (((segments.filter fun seg => !shouldRemove rangesToRemove seg).map
          (bufferedRange videoDuration startBuffer endBuffer)).zip
          (segments.filter fun seg => !shouldRemove rangesToRemove seg)),
        p.1.start ≤ p.2.start ∧ p.2.«end» ≤ p.1.«end» := by
      refine mergePairs_mem_of_pred _ ?_ _ ?_
      · rintro a b ⟨ha1, ha2⟩ ⟨hb1, hb2⟩
        exact ⟨ha1, max_le_max ha2 hb2⟩
      · intro p hp
        have hzip : ((segments.filter fun seg => !shouldRemove rangesToRemove seg).map
            (bufferedRange videoDuration startBuffer endBuffer)).zip
            (segments.filter fun seg => !shouldRemove rangesToRemove seg) =
            (segments.filter fun seg => !shouldRemove rangesToRemove seg).map
              fun s => (bufferedRange videoDuration startBuffer endBuffer s, s) := by
          have h := List.zip_map' (bufferedRange videoDuration startBuffer endBuffer)
            id (segments.filter fun seg => !shouldRemove rangesToRemove seg)
          simpa using h
        rw [hzip] at hp
        obtain ⟨s, hs, rfl⟩ := List.mem_map.1 hp
        obtain ⟨h1, h2, h3⟩ := hseg s (List.mem_of_mem_filter hs)
        exact ⟨max_le h1 (by linarith), le_min h3 (by linarith)⟩
    have hiP : i < (mergePairs
        (((segments.filter fun seg => !shouldRemove rangesToRemove seg).map
          (bufferedRange videoDuration startBuffer endBuffer)).zip
          (segments.filter fun seg => !shouldRemove rangesToRemove seg))).length := by
      simpa using hi
    rw [List.getD_eq_getElem _ _ (by simpa using hi),
      List.getD_eq_getElem _ _ (by simpa using hi),
      List.getElem_map, List.getElem_map]
    exact hQ _ (List.getElem_mem hiP)

/-- Witness for C1's buffered-containment part at a concrete one-segment
input with buffers of 0.5 s. -/
theorem claim_C1_witness :
    ((analyzeKeep [] [simpleSeg] 3 (1/2) (1/2)).1.getD 0 default).start ≤
      ((analyzeKeep [] [simpleSeg] 3 (1/2) (1/2)).2.getD 0 default).start ∧
    ((analyzeKeep [] [simpleSeg] 3 (1/2) (1/2)).2.getD 0 default).«end» ≤
      ((analyzeKeep [] [simpleSeg] 3 (1/2) (1/2)).1.getD 0 default).«end» :=
  (claim_C1 [] [simpleSeg] 3 (1/2) (1/2)).2.2.2 (by norm_num) (by norm_num)
    (by norm_num [simpleSeg]) 0
    (by norm_num [analyzeKeep, shouldRemove, bufferedRange, merge_overlapping_ranges,
      mergePairs, List.insertionSort, List.orderedInsert, mergeLoop, simpleSeg])

/-- C8 (amended): with non-negative buffers and segments lying within
`[0, duration]` with `start ≤ end`, every keep-range satisfies
`0 ≤ start`, `end ≤ duration` and `start ≤ end`; the claimed strict
`start < end` additionally needs every segment to satisfy `start < end`
(a zero-length segment with zero buffers yields a zero-length keep-range,
see the counterexample). -/
theorem claim_C8 (rangesToRemove : List TimeRange) (segments : List Segment)
    (videoDuration startBuffer endBuffer : ℚ)
    (hsb : 0 ≤ startBuffer) (heb : 0 ≤ endBuffer)
    (hseg : ∀ s ∈ segments, 0 ≤ s.start ∧ s.start ≤ s.«end» ∧ s.«end» ≤ videoDuration) :
    ∀ r ∈ (analyzeKeep rangesToRemove segments videoDuration startBuffer endBuffer).1,
      (0 ≤ r.start ∧ r.«end» ≤ videoDuration ∧ r.start ≤ r.«end») ∧
      ((∀ s ∈ segments, s.start < s.«end») → r.start < r.«end») := by
  have hak : analyzeKeep rangesToRemove segments videoDuration startBuffer endBuffer =
      merge_overlapping_ranges
        ((segments.filter fun seg => !shouldRemove rangesToRemove seg).map
          (bufferedRange videoDuration startBuffer endBuffer))
        (segments.filter fun seg => !shouldRemove rangesToRemove seg) := rfl
  intro r hr
  by_cases h0 : (segments.filter fun seg => !shouldRemove rangesToRemove seg).map
      (bufferedRange videoDuration startBuffer endBuffer) = []
  · rw [hak] at hr
    simp only [merge_overlapping_ranges, if_pos h0] at hr
    exact absurd hr (by simp)
  · rw [hak, merge_overlapping_ranges_eq _ _ h0] at hr
    dsimp only at hr
    obtain ⟨p, hp, rfl⟩ := List.mem_map.1 hr
    have hzip : ((segments.filter fun seg => !shouldRemove rangesToRemove seg).map
        (bufferedRange videoDuration startBuffer endBuffer)).zip
        (segments.filter fun seg => !shouldRemove rangesToRemove seg) =
        (segments.filter fun seg => !shouldRemove rangesToRemove seg).map
          fun s => (bufferedRange videoDuration startBuffer endBuffer s, s) := by
      have h := List.zip_map' (bufferedRange videoDuration startBuffer endBuffer)
        id (segments.filter fun seg => !shouldRemove rangesToRemove seg)
      simpa using h
    constructor
    · refine mergePairs_mem_of_pred
        (fun q => 0 ≤ q.1.start ∧ q.1.«end» ≤ videoDuration ∧ q.1.start ≤ q.1.«end»)
        ?_ _ ?_ p hp
      · rintro a b ⟨ha0, haD, hale⟩ ⟨hb0, hbD, hble⟩
        exact ⟨ha0, max_le haD hbD, le_trans hale (le_max_left _ _)⟩
      · intro q hq
        rw [hzip] at hq
        obtain ⟨s, hs, rfl⟩ := List.mem_map.1 hq
        obtain ⟨h1, h2, h3⟩ := hseg s (List.mem_of_mem_filter hs)
        refine ⟨le_max_left _ _, min_le_left _ _, ?_⟩
        exact max_le (le_min (by linarith) (by linarith))
          (le_min (by linarith) (by linarith))
    · intro hstrict
      refine mergePairs_mem_of_pred (fun q => q.1.start < q.1.«end») ?_ _ ?_ p hp
      · rintro a b ha _
        exact lt_of_lt_of_le ha (le_max_left _ _)
      · intro q hq
        rw [hzip] at hq
        obtain ⟨s, hs, rfl⟩ := List.mem_map.1 hq
        obtain ⟨h1, h2, h3⟩ := hseg s (List.mem_of_mem_filter hs)
        have h4 := hstrict s (List.mem_of_mem_filter hs)
        calc max 0 (s.start - startBuffer) ≤ s.start := max_le h1 (by linarith)
          _ < s.«end» := h4
          _ ≤ min videoDuration (s.«end» + endBuffer) := le_min h3 (by linarith)

/-- Counterexample to C8 as stated: on the one-segment input `(1, 1)` (a
zero-length segment, permitted by the claim's `end ≥ start`) with duration
2 and zero buffers, `analyze` produces the keep-range `(1, 1)`, which does
not satisfy the claimed strict `end > start`. -/
theorem claim_C8_cex :
    (∀ s ∈ [degenSeg], s.start ≤ s.«end» ∧ 0 ≤ s.start ∧ s.«end» ≤ 2) ∧
    (analyzeKeep [] [degenSeg] 2 0 0).1 = [⟨1, 1⟩] ∧
    ¬ ((⟨1, 1⟩ : TimeRange).start < (⟨1, 1⟩ : TimeRange).«end») := by
  refine ⟨by norm_num [degenSeg], ?_, by norm_num⟩
  norm_num [analyzeKeep, shouldRemove, bufferedRange, merge_overlapping_ranges,
    mergePairs, List.insertionSort, List.orderedInsert, mergeLoop, degenSeg]

/-- Witness for C8 (amended) at a concrete one-segment input. -/
theorem claim_C8_witness :
    (0 ≤ (⟨1, 2⟩ : TimeRange).start ∧ (⟨1, 2⟩ : TimeRange).«end» ≤ 3 ∧
      (⟨1, 2⟩ : TimeRange).start ≤ (⟨1, 2⟩ : TimeRange).«end») ∧
    (⟨1, 2⟩ : TimeRange).start < (⟨1, 2⟩ : TimeRange).«end» := by
  have hmem : (⟨1, 2⟩ : TimeRange) ∈ (analyzeKeep [] [simpleSeg] 3 0 0).1 := by
    norm_num [analyzeKeep, shouldRemove, bufferedRange, merge_overlapping_ranges,
      mergePairs, List.insertionSort, List.orderedInsert, mergeLoop, simpleSeg]
  have happ := claim_C8 [] [simpleSeg] 3 0 0 (le_refl 0) (le_refl 0)
    (by norm_num [simpleSeg]) _ hmem
  exact ⟨happ.1, happ.2 (by norm_num [simpleSeg])⟩

end VideoEditor
